import Mathlib

/-!
Verification of the core algorithms of the image-analysis lambda
(`src/lambda/app.py`) over a shallow embedding in Lean.

Conventions of the embedding:
* Python floats are modelled as exact rationals (`ℚ`).
* Python strings are modelled as `List Char`; `str.lower` is `Char.toLower`,
  `\s` is ASCII whitespace.
* Python's stable in-place `list.sort(key=...)` is modelled by
  `List.insertionSort` with the (total, transitive) key preorder; any stable
  sort agrees with it, so this is exactly the sorted list Timsort produces.
* `int(x)` (truncation towards zero) on a rational is `Rat.num.tdiv Rat.den`,
  and Python's banker's `round` is modelled explicitly (`pyRound`).
* The DynamoDB table behind the quota limiter is a key-value map
  `(pk, sk) ↦ record`; `update_item` with the condition expression
  `attribute_not_exists(cnt) OR cnt < :lim` either applies
  `cnt = if_not_exists(cnt, 0) + 1, expires = :ttl` atomically and returns
  the new `cnt` (ReturnValues=ALL_NEW), or raises
  `ConditionalCheckFailedException` (modelled as `none`) leaving the item
  untouched.  Each lambda invocation performs one such atomic call, so every
  concurrent schedule of N racing requests is one of the serializations
  modelled by iterating the atomic step.
-/

/-- Axis-aligned normalized bounding box, the `{"Left","Top","Width","Height"}`
dict of the source. -/
structure BBox where
  left : ℚ
  top : ℚ
  width : ℚ
  height : ℚ
deriving DecidableEq, Repr

/-- The `1e-9` added to the IoU denominator in `_iou` (app.py line 155). -/
def eps : ℚ := 1 / 1000000000

/-- Width of the intersection rectangle: `iw = max(0.0, inter_x2 - inter_x1)`
with `inter_x1 = max(x1, a1)`, `inter_x2 = min(x2, a2)` (app.py lines 148-150). -/
def interW (bb1 bb2 : BBox) : ℚ :=
  max 0 (min (bb1.left + bb1.width) (bb2.left + bb2.width) - max bb1.left bb2.left)

/-- Height of the intersection rectangle: `ih = max(0.0, inter_y2 - inter_y1)`
(app.py lines 148-150). -/
def interH (bb1 bb2 : BBox) : ℚ :=
  max 0 (min (bb1.top + bb1.height) (bb2.top + bb2.height) - max bb1.top bb2.top)

/-- `inter = iw * ih` (app.py line 151). -/
def interArea (bb1 bb2 : BBox) : ℚ := interW bb1 bb2 * interH bb1 bb2

/-- `area1 = (x2 - x1) * (y2 - y1)` simplifies to width * height
(app.py lines 153-154). -/
def area (bb : BBox) : ℚ := bb.width * bb.height

/-- The denominator `area1 + area2 - inter + 1e-9` of `_iou` (app.py line 155). -/
def iouDenom (bb1 bb2 : BBox) : ℚ := area bb1 + area bb2 - interArea bb1 bb2 + eps

/-- `_iou` (app.py lines 142-155): returns `0.0` on a zero-area intersection
without dividing, otherwise `inter / (area1 + area2 - inter + 1e-9)`. -/
def iou (bb1 bb2 : BBox) : ℚ :=
  if interArea bb1 bb2 = 0 then 0 else interArea bb1 bb2 / iouDenom bb1 bb2

lemma interW_comm (a b : BBox) : interW a b = interW b a := by
  unfold interW
  rw [min_comm (a.left + a.width), max_comm a.left]

lemma interH_comm (a b : BBox) : interH a b = interH b a := by
  unfold interH
  rw [min_comm (a.top + a.height), max_comm a.top]

lemma interArea_comm (a b : BBox) : interArea a b = interArea b a := by
  unfold interArea; rw [interW_comm, interH_comm]

lemma interArea_nonneg (a b : BBox) : 0 ≤ interArea a b :=
  mul_nonneg (le_max_left 0 _) (le_max_left 0 _)

lemma interArea_pos_of_ne {a b : BBox} (h : interArea a b ≠ 0) :
    0 < interArea a b :=
  lt_of_le_of_ne (interArea_nonneg a b) (Ne.symm h)

lemma interW_le_width {a b : BBox} (h : 0 < interW a b) : interW a b ≤ a.width := by
  unfold interW at *
  have h1 : min (a.left + a.width) (b.left + b.width) ≤ a.left + a.width :=
    min_le_left _ _
  have h2 : a.left ≤ max a.left b.left := le_max_left _ _
  have hd : min (a.left + a.width) (b.left + b.width) - max a.left b.left ≤ a.width := by
    linarith
  have hd0 : 0 < min (a.left + a.width) (b.left + b.width) - max a.left b.left := by
    by_contra h'
    push_neg at h'
    rw [max_eq_left h'] at h
    exact lt_irrefl 0 h
  rw [max_eq_right (le_of_lt hd0)]
  exact hd

lemma interH_le_height {a b : BBox} (h : 0 < interH a b) : interH a b ≤ a.height := by
  unfold interH at *
  have h1 : min (a.top + a.height) (b.top + b.height) ≤ a.top + a.height :=
    min_le_left _ _
  have h2 : a.top ≤ max a.top b.top := le_max_left _ _
  have hd : min (a.top + a.height) (b.top + b.height) - max a.top b.top ≤ a.height := by
    linarith
  have hd0 : 0 < min (a.top + a.height) (b.top + b.height) - max a.top b.top := by
    by_contra h'
    push_neg at h'
    rw [max_eq_left h'] at h
    exact lt_irrefl 0 h
  rw [max_eq_right (le_of_lt hd0)]
  exact hd

lemma interArea_le_area_left {a b : BBox} (h : interArea a b ≠ 0) :
    interArea a b ≤ area a := by
  have hpos := interArea_pos_of_ne h
  unfold interArea at *
  have hw0 : 0 ≤ interW a b := le_max_left 0 _
  have hh0 : 0 ≤ interH a b := le_max_left 0 _
  have hw : 0 < interW a b := by
    rcases lt_or_eq_of_le hw0 with h' | h'
    · exact h'
    · exfalso; rw [← h'] at hpos; simp at hpos
  have hh : 0 < interH a b := by
    rcases lt_or_eq_of_le hh0 with h' | h'
    · exact h'
    · exfalso; rw [← h'] at hpos; simp [mul_comm] at hpos
  exact mul_le_mul (interW_le_width hw) (interH_le_height hh) hh0
    (le_trans (le_of_lt hw) (interW_le_width hw))

lemma interArea_le_area_right {a b : BBox} (h : interArea a b ≠ 0) :
    interArea a b ≤ area b := by
  rw [interArea_comm] at h ⊢
  exact interArea_le_area_left h

lemma eps_pos : 0 < eps := by norm_num [eps]

lemma iouDenom_pos {a b : BBox} (h : interArea a b ≠ 0) : 0 < iouDenom a b := by
  have h1 := interArea_le_area_right h
  have h2 := interArea_pos_of_ne h
  have := eps_pos
  unfold iouDenom
  linarith [interArea_le_area_left h]

lemma iou_comm (a b : BBox) : iou a b = iou b a := by
  unfold iou iouDenom
  rw [interArea_comm a b, add_comm (area a)]

lemma iou_nonneg (a b : BBox) : 0 ≤ iou a b := by
  unfold iou
  split
  · exact le_refl 0
  · next h =>
      exact div_nonneg (interArea_nonneg a b) (le_of_lt (iouDenom_pos h))

lemma iou_le_one (a b : BBox) : iou a b ≤ 1 := by
  unfold iou
  split
  · norm_num
  · next h =>
      rw [div_le_one (iouDenom_pos h)]
      have h1 := interArea_le_area_left h
      have h2 := interArea_le_area_right h
      have := eps_pos
      unfold iouDenom
      linarith

lemma interArea_self {a : BBox} (hw : 0 < a.width) (hh : 0 < a.height) :
    interArea a a = area a := by
  unfold interArea interW interH area
  rw [min_self, max_self, min_self, max_self]
  have h1 : a.left + a.width - a.left = a.width := by ring
  have h2 : a.top + a.height - a.top = a.height := by ring
  rw [h1, h2, max_eq_right (le_of_lt hw), max_eq_right (le_of_lt hh)]

/-- Claim C8 (amended): `_iou` is symmetric and bounded in `[0,1]`, and a
zero-area intersection gives exactly 0; but for a non-degenerate box A
(positive width and height) `iou(A,A)` is `area/(area + 1e-9)`, strictly
less than 1 — not 1 as claimed. -/
theorem c8_iou_algebra :
    (∀ a b : BBox, iou a b = iou b a) ∧
    (∀ a b : BBox, 0 ≤ iou a b ∧ iou a b ≤ 1) ∧
    (∀ a : BBox, 0 < a.width → 0 < a.height →
      iou a a = area a / (area a + eps) ∧ iou a a < 1) ∧
    (∀ a b : BBox, interArea a b = 0 → iou a b = 0) := by
  refine ⟨iou_comm, fun a b => ⟨iou_nonneg a b, iou_le_one a b⟩, ?_, ?_⟩
  · intro a hw hh
    have harea : 0 < area a := mul_pos hw hh
    have hself := interArea_self hw hh
    have hne : interArea a a ≠ 0 := by rw [hself]; exact ne_of_gt harea
    constructor
    · unfold iou iouDenom
      rw [if_neg hne, hself]
      congr 1
      ring
    · unfold iou iouDenom
      rw [if_neg hne, hself]
      have hd : (0 : ℚ) < area a + (area a + area a - area a + eps - area a) := by
        have := eps_pos; linarith
      rw [div_lt_one (by have := eps_pos; linarith)]
      have := eps_pos; linarith
  · intro a b h
    unfold iou
    rw [if_pos h]

/-- Witness for `c8_iou_algebra` at the unit box. -/
theorem c8_iou_algebra_witness :
    (0 < (BBox.mk 0 0 1 1).width ∧ 0 < (BBox.mk 0 0 1 1).height) ∧
    (iou (BBox.mk 0 0 1 1) (BBox.mk 0 0 1 1) =
        area (BBox.mk 0 0 1 1) / (area (BBox.mk 0 0 1 1) + eps) ∧
      iou (BBox.mk 0 0 1 1) (BBox.mk 0 0 1 1) < 1) :=
  ⟨⟨by norm_num, by norm_num⟩,
    c8_iou_algebra.2.2.1 (BBox.mk 0 0 1 1) (by norm_num) (by norm_num)⟩

/-- Counterexample to claim C8 as stated: the unit box is non-degenerate
(positive area) yet `iou(A,A)` is not 1, because of the `1e-9` added to the
denominator. -/
theorem c8_iou_self_cex :
    (0 < (BBox.mk 0 0 1 1).width ∧ 0 < (BBox.mk 0 0 1 1).height ∧
      0 < area (BBox.mk 0 0 1 1)) ∧
    iou (BBox.mk 0 0 1 1) (BBox.mk 0 0 1 1) ≠ 1 := by
  constructor
  · refine ⟨by norm_num, by norm_num, ?_⟩
    unfold area; norm_num
  · unfold iou iouDenom interArea interW interH area eps
    norm_num

/-- Claim C9: `_iou` is total — a zero-area intersection returns exactly 0
through the early branch; otherwise the denominator is at least the added
epsilon (hence nonzero), and two degenerate (zero-area) boxes yield 0. -/
theorem c9_iou_total :
    (∀ a b : BBox, interArea a b = 0 → iou a b = 0) ∧
    (∀ a b : BBox, interArea a b ≠ 0 →
      iou a b = interArea a b / iouDenom a b ∧ eps ≤ iouDenom a b ∧ iouDenom a b ≠ 0) ∧
    (∀ a b : BBox, area a = 0 → area b = 0 → iou a b = 0) := by
  have hzero : ∀ a b : BBox, interArea a b = 0 → iou a b = 0 := by
    intro a b h; unfold iou; rw [if_pos h]
  refine ⟨hzero, ?_, ?_⟩
  · intro a b h
    have h1 := interArea_le_area_left h
    have h2 := interArea_le_area_right h
    have h3 := interArea_pos_of_ne h
    refine ⟨by unfold iou; rw [if_neg h], ?_, ne_of_gt (iouDenom_pos h)⟩
    unfold iouDenom
    linarith
  · intro a b ha _
    apply hzero
    rcases mul_eq_zero.mp ha with hw | hh
    · have : interW a b = 0 := by
        unfold interW
        apply max_eq_left
        have h1 : min (a.left + a.width) (b.left + b.width) ≤ a.left + a.width :=
          min_le_left _ _
        have h2 : a.left ≤ max a.left b.left := le_max_left _ _
        linarith [hw]
      unfold interArea; rw [this, zero_mul]
    · have : interH a b = 0 := by
        unfold interH
        apply max_eq_left
        have h1 : min (a.top + a.height) (b.top + b.height) ≤ a.top + a.height :=
          min_le_left _ _
        have h2 : a.top ≤ max a.top b.top := le_max_left _ _
        linarith [hh]
      unfold interArea; rw [this, mul_zero]

/-- Witness for `c9_iou_total`: two touching boxes have zero-area
intersection and IoU exactly 0; two overlapping unit boxes have a nonzero
intersection and a denominator bounded below by epsilon. -/
theorem c9_iou_total_witness :
    (interArea (BBox.mk 0 0 1 1) (BBox.mk 1 0 1 1) = 0 ∧
      iou (BBox.mk 0 0 1 1) (BBox.mk 1 0 1 1) = 0) ∧
    (interArea (BBox.mk 0 0 1 1) (BBox.mk 0 0 1 1) ≠ 0 ∧
      eps ≤ iouDenom (BBox.mk 0 0 1 1) (BBox.mk 0 0 1 1)) ∧
    (area (BBox.mk 0 0 0 0) = 0 ∧ iou (BBox.mk 0 0 0 0) (BBox.mk 0 0 0 0) = 0) := by
  have h1 : interArea (BBox.mk 0 0 1 1) (BBox.mk 1 0 1 1) = 0 := by
    unfold interArea interW interH; norm_num
  have h2 : interArea (BBox.mk 0 0 1 1) (BBox.mk 0 0 1 1) ≠ 0 := by
    unfold interArea interW interH; norm_num
  have h3 : area (BBox.mk 0 0 0 0) = 0 := by unfold area; norm_num
  exact ⟨⟨h1, c9_iou_total.1 _ _ h1⟩,
    ⟨h2, (c9_iou_total.2.1 _ _ h2).2.1⟩,
    ⟨h3, c9_iou_total.2.2 _ _ h3 h3⟩⟩

/-- ASCII whitespace matched by Python's `\s` in `re.sub(r"\s+", " ", s)`. -/
def isWS (c : Char) : Bool :=
  c = ' ' || c = '\t' || c = '\n' || c = '\r' || c = '\x0b' || c = '\x0c'

/-- `re.sub(r"\s+", " ", s)`: every maximal whitespace run becomes one space
(app.py line 139 / 212). -/
def collapseWS (s : List Char) : List Char :=
  (s.foldl
    (fun acc c =>
      if isWS c then (if acc.2 then acc else (acc.1 ++ [' '], true))
      else (acc.1 ++ [c], false))
    (([] : List Char), false)).1

/-- `.strip()`: drop leading and trailing whitespace. -/
def stripWS (s : List Char) : List Char :=
  (((s.dropWhile isWS).reverse.dropWhile isWS).reverse)

/-- `_norm_text` (app.py lines 138-140 and 211-212): collapse whitespace,
strip, lowercase. -/
def normText (s : List Char) : List Char :=
  (stripWS (collapseWS s)).map Char.toLower

/-- A text line as flowing through `_detect_text_lines_by_s3`:
`DetectedText`, `Confidence`, and its bounding box. -/
structure Line where
  text : List Char
  confidence : ℚ
  box : BBox
deriving DecidableEq, Repr

/-- The duplicate test of the dedup loop (app.py line 234):
`_norm_text(u["DetectedText"]) == txtn and _iou(bb, u["Box"]) > 0.5`,
with `l` the candidate and `u` an already-accepted line. -/
def isDup (cand kept : Line) : Bool :=
  decide (normText cand.text = normText kept.text) &&
    decide (iou cand.box kept.box > 1 / 2)

/-- The accumulator loop of `_detect_text_lines_by_s3` (app.py lines 228-242):
append the candidate to `uniq` unless it duplicates an accepted line. -/
def dedupLoop (uniq : List Line) : List Line → List Line
  | [] => uniq
  | l :: rest =>
    if uniq.any (fun u => isDup l u) then dedupLoop uniq rest
    else dedupLoop (uniq ++ [l]) rest

/-- The LineDeduplicator: the confidence filter (app.py line 194,
`float(d.get("Confidence",0)) >= min_conf`) followed by the dedup loop. -/
def deduplicate (minConf : ℚ) (lines : List Line) : List Line :=
  dedupLoop [] (lines.filter (fun l => decide (minConf ≤ l.confidence)))

/-- Modelled from the spec's words (claim C4), for refinement against
`deduplicate`: the duplicate predicate — equal normalized texts AND box IoU
strictly above 0.5. -/
def isDupSpec (a b : Line) : Prop :=
  normText a.text = normText b.text ∧ iou a.box b.box > 1 / 2

instance : DecidablePred fun p : Line × Line => isDupSpec p.1 p.2 := by
  intro p; unfold isDupSpec; infer_instance

instance isDupSpecDecidable (a b : Line) : Decidable (isDupSpec a b) := by
  unfold isDupSpec; infer_instance

/-- Modelled from the spec's words (claim C4): scan candidates in input
order, keeping a candidate exactly when no already-kept line is its
duplicate. -/
def dedupSpecLoop (kept : List Line) : List Line → List Line
  | [] => kept
  | c :: rest =>
    if ∀ k ∈ kept, ¬ isDupSpec c k then dedupSpecLoop (kept ++ [c]) rest
    else dedupSpecLoop kept rest

/-- Modelled from the spec's words (claim C4): drop lines whose confidence
is below `min_confidence`, then scan for duplicates. -/
def dedupSpec (minConf : ℚ) (lines : List Line) : List Line :=
  dedupSpecLoop [] (lines.filter (fun l => decide (¬ l.confidence < minConf)))

lemma isDup_iff_isDupSpec (a b : Line) : isDup a b = true ↔ isDupSpec a b := by
  unfold isDup isDupSpec
  simp

lemma isDup_comm (a b : Line) : isDup a b = isDup b a := by
  unfold isDup
  rw [iou_comm]
  by_cases h : normText a.text = normText b.text
  · rw [h]
  · have h' : ¬ normText b.text = normText a.text := fun hh => h hh.symm
    simp [h, h']

lemma dedupLoop_eq_dedupSpecLoop (rest : List Line) :
    ∀ uniq, dedupLoop uniq rest = dedupSpecLoop uniq rest := by
  induction rest with
  | nil => intro uniq; rfl
  | cons l rest ih =>
      intro uniq
      unfold dedupLoop dedupSpecLoop
      by_cases h : uniq.any (fun u => isDup l u)
      · rw [if_pos h, if_neg, ih]
        intro hall
        rcases List.any_eq_true.mp h with ⟨u, hu, hdup⟩
        exact hall u hu ((isDup_iff_isDupSpec l u).mp hdup)
      · rw [if_neg h, if_pos, ih]
        intro k hk hdup
        exact h (List.any_eq_true.mpr ⟨k, hk, (isDup_iff_isDupSpec l k).mpr hdup⟩)

lemma deduplicate_eq_dedupSpec (minConf : ℚ) (lines : List Line) :
    deduplicate minConf lines = dedupSpec minConf lines := by
  unfold deduplicate dedupSpec
  rw [dedupLoop_eq_dedupSpecLoop]
  congr 1
  apply List.filter_congr
  intro l _
  simp [not_lt]

lemma dedupLoop_append_sublist (rest : List Line) :
    ∀ uniq, ∃ s, dedupLoop uniq rest = uniq ++ s ∧ s.Sublist rest := by
  induction rest with
  | nil => intro uniq; exact ⟨[], by simp [dedupLoop]⟩
  | cons l rest ih =>
      intro uniq
      unfold dedupLoop
      by_cases h : uniq.any (fun u => isDup l u)
      · rw [if_pos h]
        rcases ih uniq with ⟨s, hs, hsub⟩
        exact ⟨s, hs, hsub.cons l⟩
      · rw [if_neg h]
        rcases ih (uniq ++ [l]) with ⟨s, hs, hsub⟩
        refine ⟨l :: s, ?_, hsub.cons₂ l⟩
        rw [hs, List.append_assoc]
        rfl

lemma dedupLoop_pairwise (rest : List Line) :
    ∀ uniq, uniq.Pairwise (fun a b => isDup b a = false) →
      (dedupLoop uniq rest).Pairwise (fun a b => isDup b a = false) := by
  induction rest with
  | nil => intro uniq h; exact h
  | cons l rest ih =>
      intro uniq h
      unfold dedupLoop
      by_cases hany : uniq.any (fun u => isDup l u)
      · rw [if_pos hany]; exact ih uniq h
      · rw [if_neg hany]
        apply ih
        rw [List.pairwise_append]
        refine ⟨h, List.pairwise_singleton _ _, ?_⟩
        intro a ha b hb
        have hb' : b = l := List.mem_singleton.mp hb
        subst hb'
        have h0 : uniq.any (fun u => isDup b u) = false := by simpa using hany
        simpa using List.any_eq_false.mp h0 a ha

lemma dedupLoop_fixed (rest : List Line) :
    ∀ uniq, (uniq ++ rest).Pairwise (fun a b => isDup b a = false) →
      dedupLoop uniq rest = uniq ++ rest := by
  induction rest with
  | nil => intro uniq _; simp [dedupLoop]
  | cons l rest ih =>
      intro uniq h
      unfold dedupLoop
      have hnot : uniq.any (fun u => isDup l u) = false := by
        rw [List.any_eq_false]
        intro u hu
        rw [List.pairwise_append] at h
        have := h.2.2 u hu l (List.mem_cons_self l rest)
        simp [this]
      rw [hnot]
      simp only [Bool.false_eq_true, if_false]
      have h' : ((uniq ++ [l]) ++ rest).Pairwise (fun a b => isDup b a = false) := by
        rw [List.append_assoc]
        exact h
      rw [ih (uniq ++ [l]) h', List.append_assoc]
      rfl

lemma not_isDupSpec_of_isDup_false {a b : Line} (h : isDup a b = false) :
    ¬ isDupSpec a b := by
  intro hs
  rw [(isDup_iff_isDupSpec a b).mpr hs] at h
  exact Bool.true_eq_false.mp h

/-- Claim C4: the deduplicator drops lines below `min_confidence`, then keeps
a candidate exactly when no already-kept line is its duplicate (equal
normalized texts and IoU strictly above 0.5); the output is a sublist of the
filtered input (first-seen order preserved) and no two survivors are
duplicates of each other. -/
theorem c4_dedup_contract (minConf : ℚ) (lines : List Line) :
    deduplicate minConf lines = dedupSpec minConf lines ∧
    (deduplicate minConf lines).Sublist
      (lines.filter (fun l => decide (minConf ≤ l.confidence))) ∧
    (deduplicate minConf lines).Pairwise
      (fun a b => ¬ isDupSpec a b ∧ ¬ isDupSpec b a) := by
  refine ⟨deduplicate_eq_dedupSpec minConf lines, ?_, ?_⟩
  · rcases dedupLoop_append_sublist
      (lines.filter (fun l => decide (minConf ≤ l.confidence))) [] with ⟨s, hs, hsub⟩
    unfold deduplicate
    rw [hs]
    simpa using hsub
  · have h := dedupLoop_pairwise
      (lines.filter (fun l => decide (minConf ≤ l.confidence))) [] List.Pairwise.nil
    unfold deduplicate
    apply h.imp
    intro a b hab
    have hba : isDup a b = false := by rw [isDup_comm]; exact hab
    exact ⟨not_isDupSpec_of_isDup_false hba, not_isDupSpec_of_isDup_false hab⟩

/-- Claim C5: deduplication is idempotent — running the deduplicator on its
own output (with the same confidence threshold) returns the output
unchanged. -/
theorem c5_dedup_idempotent (minConf : ℚ) (lines : List Line) :
    deduplicate minConf (deduplicate minConf lines) = deduplicate minConf lines := by
  have hpair := dedupLoop_pairwise
    (lines.filter (fun l => decide (minConf ≤ l.confidence))) [] List.Pairwise.nil
  rcases dedupLoop_append_sublist
    (lines.filter (fun l => decide (minConf ≤ l.confidence))) [] with ⟨s, hs, hsub⟩
  have hout : deduplicate minConf lines =
      dedupLoop [] (lines.filter (fun l => decide (minConf ≤ l.confidence))) := rfl
  have hfilter : (deduplicate minConf lines).filter
      (fun l => decide (minConf ≤ l.confidence)) = deduplicate minConf lines := by
    apply List.filter_eq_self.mpr
    intro l hl
    rw [hout, hs] at hl
    simp only [List.nil_append] at hl
    have hmem : l ∈ lines.filter (fun l => decide (minConf ≤ l.confidence)) :=
      hsub.subset hl
    simpa using (List.mem_filter.mp hmem).2
  show dedupLoop [] ((deduplicate minConf lines).filter
      (fun l => decide (minConf ≤ l.confidence))) = deduplicate minConf lines
  rw [hfilter]
  have : (([] : List Line) ++ deduplicate minConf lines).Pairwise
      (fun a b => isDup b a = false) := by
    simpa using hpair
  simpa using dedupLoop_fixed (deduplicate minConf lines) [] this

/-- A word-level detection entering `_group_words_into_lines`:
`DetectedText`, `Confidence`, `Geometry.BoundingBox`. -/
structure Word where
  text : List Char
  confidence : ℚ
  box : BBox
deriving DecidableEq, Repr

/-- Python `int(x)`: truncation towards zero (app.py line 168). -/
def pyInt (q : ℚ) : ℤ := q.num.tdiv q.den

/-- Mathematical floor of a rational, computably. -/
def floorQ (q : ℚ) : ℤ := q.num.fdiv q.den

lemma floorQ_eq_floor (q : ℚ) : floorQ q = ⌊q⌋ := by
  rw [Rat.floor_def, floorQ, Int.fdiv_eq_ediv]
  exact_mod_cast Nat.zero_le q.den

lemma pyInt_eq_floor {q : ℚ} (h : 0 ≤ q) : pyInt q = ⌊q⌋ := by
  rw [Rat.floor_def, pyInt, Int.tdiv_eq_ediv]
  · exact Rat.num_nonneg.mpr h
  · exact_mod_cast Nat.zero_le q.den

/-- Python's `round` (banker's rounding, round-half-to-even), used in the
pre-sort key `round(center_y(...)*100)` (app.py line 162). -/
def pyRound (q : ℚ) : ℤ :=
  if q - floorQ q < 1 / 2 then floorQ q
  else if 1 / 2 < q - floorQ q then floorQ q + 1
  else if floorQ q % 2 = 0 then floorQ q else floorQ q + 1

/-- `center_y(bb) = bb["Top"] + bb["Height"]/2` (app.py line 161). -/
def centerY (bb : BBox) : ℚ := bb.top + bb.height / 2

/-- `band = 0.04` (app.py line 165). -/
def band : ℚ := 4 / 100

/-- The row bucket `r = int(center_y(bb) / band)` (app.py line 168). -/
def rowBucket (w : Word) : ℤ := pyInt (centerY w.box / band)

/-- The first component of the pre-sort key
`(round(center_y(bb)*100), bb["Left"])` (app.py line 162). -/
def rKey (w : Word) : ℤ := pyRound (centerY w.box * 100)

/-- Lexicographic pre-sort order of `words.sort(key=lambda w: (round(...), Left))`
(app.py line 162). -/
def preRel (a b : Word) : Prop :=
  rKey a < rKey b ∨ (rKey a = rKey b ∧ a.box.left ≤ b.box.left)

/-- Within-bucket order of `ws.sort(key=lambda w: Left)` (app.py line 173). -/
def leftRel (a b : Word) : Prop := a.box.left ≤ b.box.left

instance preRelDecidable : DecidableRel preRel := fun a b => by
  unfold preRel; infer_instance

instance leftRelDecidable : DecidableRel leftRel := fun a b => by
  unfold leftRel; infer_instance

instance preRelTotal : IsTotal Word preRel := by
  constructor
  intro a b
  rcases lt_trichotomy (rKey a) (rKey b) with h | h | h
  · exact Or.inl (Or.inl h)
  · rcases le_total a.box.left b.box.left with hl | hl
    · exact Or.inl (Or.inr ⟨h, hl⟩)
    · exact Or.inr (Or.inr ⟨h.symm, hl⟩)
  · exact Or.inr (Or.inl h)

instance preRelTrans : IsTrans Word preRel := by
  constructor
  intro a b c hab hbc
  rcases hab with h1 | ⟨h1, hl1⟩ <;> rcases hbc with h2 | ⟨h2, hl2⟩
  · exact Or.inl (lt_trans h1 h2)
  · exact Or.inl (h2 ▸ h1)
  · exact Or.inl (h1 ▸ h2)
  · exact Or.inr ⟨h1.trans h2, le_trans hl1 hl2⟩

instance leftRelTotal : IsTotal Word leftRel :=
  ⟨fun a b => le_total a.box.left b.box.left⟩

instance leftRelTrans : IsTrans Word leftRel :=
  ⟨fun _ _ _ h1 h2 => le_trans h1 h2⟩

/-- `" ".join(texts)` (app.py line 174). -/
def joinSpace (ts : List (List Char)) : List Char :=
  (List.intersperse [' '] ts).flatten

/-- Python `min` of a nonempty list (app.py lines 182-183); 0 for `[]`
(unreachable in the source). -/
def minD : List ℚ → ℚ
  | [] => 0
  | x :: xs => xs.foldl min x

/-- Python `max` of a nonempty list (app.py lines 183-184); 0 for `[]`
(unreachable in the source). -/
def maxD : List ℚ → ℚ
  | [] => 0
  | x :: xs => xs.foldl max x

/-- Builds one output line from a bucket's words (app.py lines 174-186):
joined text, averaged confidence (`sum/max(1,len)`), enclosing box. -/
def mkLine (ws : List Word) : Line :=
  { text := joinSpace (ws.map (·.text))
    confidence := (ws.map (·.confidence)).sum / ((max 1 ws.length : ℕ) : ℚ)
    box :=
      { left := minD (ws.map (·.box.left))
        top := minD (ws.map (·.box.top))
        width := maxD (ws.map (fun w => w.box.left + w.box.width)) -
          minD (ws.map (·.box.left))
        height := maxD (ws.map (fun w => w.box.top + w.box.height)) -
          minD (ws.map (·.box.top)) } }

/-- The in-place `words.sort(key=lambda w: (round(center_y*100), Left))`
(app.py line 162): the caller's list after `_group_words_into_lines` returns. -/
def groupPost (words : List Word) : List Word :=
  List.insertionSort preRel words

/-- `_group_words_into_lines` (app.py lines 157-187): empty input gives `[]`;
otherwise pre-sort, bucket by `int(center_y/band)`, emit buckets in ascending
key order (`sorted(rows.items())`), each bucket sorted by `Left` and
aggregated by `mkLine`. -/
def group (words : List Word) : List Line :=
  if words.isEmpty then []
  else
    (List.insertionSort (· ≤ ·) (((groupPost words).map rowBucket).dedup)).map
      (fun b => mkLine (List.insertionSort leftRel
        ((groupPost words).filter (fun w => decide (rowBucket w = b)))))

/-- `_iou` with the identity of its (unmutated) arguments after the call. -/
def iouCall (a b : BBox) : ℚ × BBox × BBox := (iou a b, a, b)

/-- The dedup pass with the identity of its (unmutated) input after the call. -/
def dedupCall (minConf : ℚ) (lines : List Line) : List Line × List Line :=
  (deduplicate minConf lines, lines)

/-- `_group_words_into_lines` with the caller's word list after the call:
the function sorts the passed list in place (app.py line 162). -/
def groupCall (words : List Word) : List Line × List Word :=
  (group words, groupPost words)

lemma group_eq_of_ne_nil {ws : List Word} (h : ws ≠ []) :
    group ws = (List.insertionSort (· ≤ ·) (((groupPost ws).map rowBucket).dedup)).map
      (fun b => mkLine (List.insertionSort leftRel
        ((groupPost ws).filter (fun w => decide (rowBucket w = b))))) := by
  unfold group
  rw [if_neg]
  simpa [List.isEmpty_iff] using h

/-- Normalized-box invariant of the data model: nonnegative top and height. -/
def WordNonneg (ws : List Word) : Prop := ∀ w ∈ ws, 0 ≤ w.box.top ∧ 0 ≤ w.box.height

/-- A line aggregates a bucket's words (claim C6): joined texts, mean
confidence, min/max enclosing box. -/
def lineAgg (ln : Line) (bws : List Word) : Prop :=
  ln.text = joinSpace (bws.map (·.text)) ∧
  ln.confidence = (bws.map (·.confidence)).sum / (bws.length : ℚ) ∧
  ln.box.left = minD (bws.map (·.box.left)) ∧
  ln.box.top = minD (bws.map (·.box.top)) ∧
  ln.box.left + ln.box.width = maxD (bws.map (fun w => w.box.left + w.box.width)) ∧
  ln.box.top + ln.box.height = maxD (bws.map (fun w => w.box.top + w.box.height))

/-- The structural contract of claim C6: strictly ascending buckets, one line
per occupied bucket, each obtained from the bucket's words sorted by left. -/
def GroupSpecProp (ws : List Word) : Prop :=
  (∀ w ∈ ws, rowBucket w = ⌊centerY w.box / band⌋) ∧
  ∃ rs : List ℤ,
    rs.Pairwise (· < ·) ∧
    (∀ r, r ∈ rs ↔ ∃ w ∈ ws, rowBucket w = r) ∧
    List.Forall₂
      (fun r ln => ∃ bws : List Word,
        bws ≠ [] ∧ bws.Perm (ws.filter (fun w => decide (rowBucket w = r))) ∧
        bws.Pairwise leftRel ∧ lineAgg ln bws)
      rs (group ws)

lemma rowBucket_eq_floor {w : Word} (h1 : 0 ≤ w.box.top) (h2 : 0 ≤ w.box.height) :
    rowBucket w = ⌊centerY w.box / band⌋ := by
  unfold rowBucket
  apply pyInt_eq_floor
  apply div_nonneg
  · unfold centerY
    have : (0 : ℚ) ≤ w.box.height / 2 := by linarith
    linarith
  · norm_num [band]

lemma mem_group_buckets {ws : List Word} {r : ℤ} :
    r ∈ List.insertionSort (· ≤ ·) (((groupPost ws).map rowBucket).dedup) ↔
      ∃ w ∈ ws, rowBucket w = r := by
  have hsp : (groupPost ws).Perm ws := List.perm_insertionSort preRel ws
  rw [List.mem_insertionSort, List.mem_dedup, List.mem_map]
  constructor
  · rintro ⟨w, hw, hwr⟩
    exact ⟨w, hsp.mem_iff.mp hw, hwr⟩
  · rintro ⟨w, hw, hwr⟩
    exact ⟨w, hsp.mem_iff.mpr hw, hwr⟩

/-- Concrete word from the spec's grouping example: `"Hello"` at
`left=0.0, top=0.10, w=0.1, h=0.05`, confidence 90. -/
def helloWord : Word := ⟨"Hello".toList, 90, ⟨0, 1 / 10, 1 / 10, 1 / 20⟩⟩

/-- Concrete word from the spec's grouping example: `"World"` at
`left=0.12, top=0.11, w=0.1, h=0.05`, confidence 80. -/
def worldWord : Word := ⟨"World".toList, 80, ⟨12 / 100, 11 / 100, 1 / 10, 1 / 20⟩⟩

/-- Concrete word from the spec's grouping example: a third word at
`top=0.50`. -/
def thirdWord : Word := ⟨"Third".toList, 70, ⟨0, 1 / 2, 1 / 10, 1 / 20⟩⟩

/-- Expected single line for the `"Hello"`/`"World"` example: joined text,
averaged confidence 85, enclosing box. -/
def helloWorldLine : Line := ⟨"Hello World".toList, 85, ⟨0, 1 / 10, 11 / 50, 3 / 50⟩⟩

/-- Expected separate second line for the third word. -/
def thirdLine : Line := ⟨"Third".toList, 70, ⟨0, 1 / 2, 1 / 10, 1 / 20⟩⟩

unseal Rat.add Rat.sub Rat.mul Rat.inv in
lemma group_hello_world_eval : group [helloWord, worldWord] = [helloWorldLine] := by
  decide

unseal Rat.add Rat.sub Rat.mul Rat.inv in
lemma group_hello_world_third_eval :
    group [helloWord, worldWord, thirdWord] = [helloWorldLine, thirdLine] := by
  decide

lemma group_forall₂ (ws : List Word) (hne : ws ≠ []) :
    List.Forall₂
      (fun r ln => ∃ bws : List Word,
        bws ≠ [] ∧ bws.Perm (ws.filter (fun w => decide (rowBucket w = r))) ∧
        bws.Pairwise leftRel ∧ lineAgg ln bws)
      (List.insertionSort (· ≤ ·) (((groupPost ws).map rowBucket).dedup))
      (group ws) := by
  rw [group_eq_of_ne_nil hne, List.forall₂_map_right_iff, List.forall₂_same]
  intro r hr
  refine ⟨List.insertionSort leftRel
    ((groupPost ws).filter (fun w => decide (rowBucket w = r))), ?_, ?_, ?_, ?_⟩
  · rcases mem_group_buckets.mp hr with ⟨w, hw, hwr⟩
    apply List.ne_nil_of_mem (a := w)
    rw [List.mem_insertionSort, List.mem_filter]
    exact ⟨(List.perm_insertionSort preRel ws).mem_iff.mpr hw, by simp [hwr]⟩
  · exact (List.perm_insertionSort leftRel _).trans
      ((List.perm_insertionSort preRel ws).filter _)
  · exact List.sorted_insertionSort leftRel _
  · have hne' : List.insertionSort leftRel
        ((groupPost ws).filter (fun w => decide (rowBucket w = r))) ≠ [] := by
      rcases mem_group_buckets.mp hr with ⟨w, hw, hwr⟩
      apply List.ne_nil_of_mem (a := w)
      rw [List.mem_insertionSort, List.mem_filter]
      exact ⟨(List.perm_insertionSort preRel ws).mem_iff.mpr hw, by simp [hwr]⟩
    have hlen : 1 ≤ (List.insertionSort leftRel
        ((groupPost ws).filter (fun w => decide (rowBucket w = r)))).length :=
      List.length_pos.mpr hne'
    refine ⟨rfl, ?_, rfl, rfl, ?_, ?_⟩
    · show (_ : ℚ) / ((max 1 _ : ℕ) : ℚ) = _ / _
      rw [Nat.max_eq_right hlen]
    · show minD _ + (maxD _ - minD _) = maxD _
      ring
    · show minD _ + (maxD _ - minD _) = maxD _
      ring

/-- Claim C6: for nonempty word input with normalized (nonnegative) boxes,
grouping buckets words by `floor(center/0.04)`, emits buckets in strictly
ascending order, sorts each bucket by left, joins texts with single spaces,
averages confidences, and takes the min/max enclosing box; on the spec's
example, `"Hello"` and `"World"` form one line and a third word at
`top=0.50` forms a second. -/
theorem c6_group_contract :
    (∀ ws : List Word, ws ≠ [] → WordNonneg ws → GroupSpecProp ws) ∧
    group [helloWord, worldWord] = [helloWorldLine] ∧
    group [helloWord, worldWord, thirdWord] = [helloWorldLine, thirdLine] := by
  refine ⟨?_, group_hello_world_eval, group_hello_world_third_eval⟩
  intro ws hne hnn
  constructor
  · intro w hw
    exact rowBucket_eq_floor (hnn w hw).1 (hnn w hw).2
  · refine ⟨List.insertionSort (· ≤ ·) (((groupPost ws).map rowBucket).dedup),
      ?_, fun r => mem_group_buckets, group_forall₂ ws hne⟩
    have hsorted : (List.insertionSort (· ≤ ·)
        (((groupPost ws).map rowBucket).dedup)).Sorted (· ≤ ·) :=
      List.sorted_insertionSort _ _
    have hnodup : (List.insertionSort (· ≤ ·)
        (((groupPost ws).map rowBucket).dedup)).Nodup :=
      ((List.perm_insertionSort _ _).nodup_iff).mpr
        (List.nodup_dedup ((groupPost ws).map rowBucket))
    exact hsorted.lt_of_le hnodup

/-- Witness for `c6_group_contract` at the spec's two-word example. -/
theorem c6_group_contract_witness :
    (([helloWord, worldWord] : List Word) ≠ [] ∧ WordNonneg [helloWord, worldWord]) ∧
    GroupSpecProp [helloWord, worldWord] := by
  refine ⟨⟨by simp, ?_⟩, ?_⟩
  · intro w hw
    rcases List.mem_cons.mp hw with h | h
    · subst h; constructor <;> norm_num [helloWord]
    · have h' : w = worldWord := by simpa using h
      subst h'; constructor <;> norm_num [worldWord]
  · apply c6_group_contract.1 [helloWord, worldWord] (by simp)
    intro w hw
    rcases List.mem_cons.mp hw with h | h
    · subst h; constructor <;> norm_num [helloWord]
    · have h' : w = worldWord := by simpa using h
      subst h'; constructor <;> norm_num [worldWord]

lemma sorted_key_unique {α : Type _} {β : Type _} [LinearOrder β] (key : α → β) :
    ∀ {l₁ l₂ : List α}, l₁.Perm l₂ →
      l₁.Pairwise (fun a b => key a ≤ key b) →
      l₂.Pairwise (fun a b => key a ≤ key b) →
      (l₁.map key).Nodup → l₁ = l₂ := by
  intro l₁
  induction l₁ with
  | nil =>
      intro l₂ hp _ _ _
      exact (List.Perm.eq_nil hp.symm).symm
  | cons a t₁ ih =>
      intro l₂ hp hs₁ hs₂ hnd
      cases l₂ with
      | nil => exact absurd (List.Perm.eq_nil hp) (by simp)
      | cons b t₂ =>
          have hab : a = b := by
            have hbmem : b ∈ a :: t₁ := hp.mem_iff.mpr (List.mem_cons_self b t₂)
            rcases List.mem_cons.mp hbmem with h | hbt
            · exact h.symm
            · by_contra hne
              have hamem : a ∈ b :: t₂ := hp.mem_iff.mp (List.mem_cons_self a t₁)
              rcases List.mem_cons.mp hamem with h' | hat
              · exact hne h'
              · have h1 : key a ≤ key b := (List.pairwise_cons.mp hs₁).1 b hbt
                have h2 : key b ≤ key a := (List.pairwise_cons.mp hs₂).1 a hat
                have heq : key b = key a := le_antisymm h2 h1
                have hmem : key b ∈ t₁.map key := List.mem_map_of_mem key hbt
                have hnd' : key a ∉ t₁.map key :=
                  (List.nodup_cons.mp (by simpa using hnd)).1
                exact hnd' (heq ▸ hmem)
          subst hab
          have hpt : t₁.Perm t₂ := hp.cons_inv
          rw [ih hpt (List.pairwise_cons.mp hs₁).2 (List.pairwise_cons.mp hs₂).2
            (List.nodup_cons.mp (by simpa using hnd)).2]

/-- No two words of the list share both a row bucket and a left coordinate:
the condition under which the grouping output cannot depend on input order. -/
def TieFree (ws : List Word) : Prop :=
  ws.Pairwise (fun a b => rowBucket a = rowBucket b → a.box.left ≠ b.box.left)

lemma tieFree_filter_nodup {ws : List Word} (ht : TieFree ws) (r : ℤ) :
    ((ws.filter (fun w => decide (rowBucket w = r))).map (fun w => w.box.left)).Nodup := by
  have hpf : (ws.filter (fun w => decide (rowBucket w = r))).Pairwise
      (fun a b => rowBucket a = rowBucket b → a.box.left ≠ b.box.left) :=
    ht.filter _
  have hpf2 : (ws.filter (fun w => decide (rowBucket w = r))).Pairwise
      (fun a b => a.box.left ≠ b.box.left) := by
    apply hpf.imp_of_mem
    intro a b ha hb hcond
    have ha' : rowBucket a = r := by simpa using (List.mem_filter.mp ha).2
    have hb' : rowBucket b = r := by simpa using (List.mem_filter.mp hb).2
    exact hcond (ha'.trans hb'.symm)
  exact List.pairwise_map.mpr hpf2

/-- Claim C7 (amended): grouping is insensitive to the input order whenever
no two words share both a row bucket and a left coordinate; for such inputs
any two permutations of the word list produce identical output. -/
theorem c7_group_perm_invariant (ws₁ ws₂ : List Word) (hp : ws₁.Perm ws₂)
    (ht : TieFree ws₁) : group ws₁ = group ws₂ := by
  by_cases hnil : ws₁ = []
  · subst hnil
    rw [List.Perm.eq_nil hp.symm]
  · have hnil₂ : ws₂ ≠ [] := by
      intro h
      subst h
      exact hnil (List.Perm.eq_nil hp)
    rw [group_eq_of_ne_nil hnil, group_eq_of_ne_nil hnil₂]
    have hchain : (groupPost ws₁).Perm (groupPost ws₂) :=
      ((List.perm_insertionSort preRel ws₁).trans hp).trans
        (List.perm_insertionSort preRel ws₂).symm
    have hrs : List.insertionSort (· ≤ ·) (((groupPost ws₁).map rowBucket).dedup) =
        List.insertionSort (· ≤ ·) (((groupPost ws₂).map rowBucket).dedup) := by
      have hrp : (List.insertionSort (· ≤ ·)
          (((groupPost ws₁).map rowBucket).dedup)).Perm
            (List.insertionSort (· ≤ ·) (((groupPost ws₂).map rowBucket).dedup)) :=
        ((List.perm_insertionSort _ _).trans
          ((hchain.map rowBucket).dedup)).trans (List.perm_insertionSort _ _).symm
      exact List.eq_of_perm_of_sorted hrp
        (List.sorted_insertionSort _ _) (List.sorted_insertionSort _ _)
    rw [hrs]
    apply List.map_congr_left
    intro b _
    congr 1
    apply sorted_key_unique (fun w => w.box.left)
    · exact ((List.perm_insertionSort leftRel _).trans
        (hchain.filter _)).trans (List.perm_insertionSort leftRel _).symm
    · exact (List.sorted_insertionSort leftRel _).imp (fun h => h)
    · exact (List.sorted_insertionSort leftRel _).imp (fun h => h)
    · have hperm : ((List.insertionSort leftRel
          ((groupPost ws₁).filter (fun w => decide (rowBucket w = b)))).map
            (fun w => w.box.left)).Perm
          ((ws₁.filter (fun w => decide (rowBucket w = b))).map (fun w => w.box.left)) :=
        ((List.perm_insertionSort leftRel _).trans
          ((List.perm_insertionSort preRel ws₁).filter _)).map _
      exact hperm.symm.nodup (tieFree_filter_nodup ht b)

/-- Two words with identical boxes but different texts: a tie the pre-sort
cannot break. -/
def tieWordA : Word := ⟨"a".toList, 50, ⟨0, 0, 1 / 10, 1 / 20⟩⟩

/-- Same box as `tieWordA`, different text. -/
def tieWordB : Word := ⟨"b".toList, 50, ⟨0, 0, 1 / 10, 1 / 20⟩⟩

unseal Rat.add Rat.sub Rat.mul Rat.inv in
/-- Counterexample to claim C7 as stated: the two orderings of the same two
words (identical boxes, different texts) are permutations of each other but
group to different line texts, so grouping is not order-insensitive. -/
theorem c7_group_order_cex :
    List.Perm [tieWordA, tieWordB] [tieWordB, tieWordA] ∧
    group [tieWordA, tieWordB] ≠ group [tieWordB, tieWordA] := by
  constructor
  · exact List.Perm.swap tieWordB tieWordA []
  · decide

/-- Witness for `c7_group_perm_invariant`: the two orderings of the
`"Hello"`/`"World"` example (distinct lefts) group identically. -/
theorem c7_group_perm_invariant_witness :
    (List.Perm [helloWord, worldWord] [worldWord, helloWord] ∧
      TieFree [helloWord, worldWord]) ∧
    group [helloWord, worldWord] = group [worldWord, helloWord] := by
  have hperm : List.Perm [helloWord, worldWord] [worldWord, helloWord] :=
    List.Perm.swap worldWord helloWord []
  have htie : TieFree [helloWord, worldWord] := by
    constructor
    · intro b hb _
      have hb' : b = worldWord := by simpa using hb
      subst hb'
      norm_num [helloWord, worldWord]
    · simp [TieFree]
  exact ⟨⟨hperm, htie⟩, c7_group_perm_invariant _ _ hperm htie⟩

unseal Rat.add Rat.sub Rat.mul Rat.inv in
/-- Counterexample to claim C10 as stated: `_group_words_into_lines` sorts
the caller's list in place, so after the call the passed list is reordered,
not unchanged. -/
theorem c10_purity_cex :
    (groupCall [worldWord, helloWord]).2 ≠ [worldWord, helloWord] := by
  decide

/-- Claim C10 (amended): the geometry and dedup operations take and return
values without touching their inputs, and their results depend only on their
arguments; `group`, however, leaves the caller's list re-sorted in place —
a permutation of the input (its stable pre-sort), not the input itself. -/
theorem c10_purity_frame :
    (∀ a b : BBox, (iouCall a b).2 = (a, b)) ∧
    (∀ (minConf : ℚ) (lines : List Line), (dedupCall minConf lines).2 = lines) ∧
    (∀ ws : List Word, (groupCall ws).2.Perm ws ∧ (groupCall ws).2.Pairwise preRel) :=
  ⟨fun _ _ => rfl, fun _ _ => rfl,
    fun ws => ⟨List.perm_insertionSort preRel ws, List.sorted_insertionSort preRel ws⟩⟩

/-- One DynamoDB item of the quota table: the numeric attributes `cnt` and
`expires` written by `enforce_quota` (app.py lines 102-111). -/
structure QuotaRecord where
  cnt : ℕ
  expires : ℕ
deriving DecidableEq, Repr

/-- The quota table: a map from `(pk, sk)` to an item. -/
def QuotaStore := (String × String) → Option QuotaRecord

/-- Writing one item (the effect of a successful conditional `update_item`). -/
def updateStore (s : QuotaStore) (k : String × String) (v : QuotaRecord) : QuotaStore :=
  fun k' => if k' = k then some v else s k'

/-- The store with no items: every `(subject, day)` record is absent. -/
def emptyStore : QuotaStore := fun _ => none

/-- The atomic conditional increment of `enforce_quota` (app.py lines 102-117):
DynamoDB `update_item` with condition `attribute_not_exists(cnt) OR cnt < :lim`
and update `SET cnt = if_not_exists(cnt, 0) + 1, expires = :ttl`,
`ReturnValues=ALL_NEW`.  `some n` is the returned new count; `none` is the
`ConditionalCheckFailedException` branch (the 429 QuotaExceeded response),
which leaves the store untouched. -/
def tryIncrement (store : QuotaStore) (key : String × String) (limit : ℤ) (ttl : ℕ) :
    Option ℕ × QuotaStore :=
  match store key with
  | none => (some 1, updateStore store key ⟨1, ttl⟩)
  | some r =>
    if (r.cnt : ℤ) < limit then
      (some (r.cnt + 1), updateStore store key ⟨r.cnt + 1, ttl⟩)
    else (none, store)

/-- The table key built by `enforce_quota` (app.py line 100):
`pk = f"user#{user_id}"`, `sk = day`. -/
def quotaKey (subject day : String) : String × String := ("user#" ++ subject, day)

/-- `enforce_quota` for an enabled quota (app.py lines 96-118): one atomic
conditional increment on the `(subject, day)` key. -/
def enforce_quota (store : QuotaStore) (subject day : String) (limit : ℤ) (ttl : ℕ) :
    Option ℕ × QuotaStore :=
  tryIncrement store (quotaKey subject day) limit ttl

/-- The stored pre-increment count of a key, a missing record counting as 0. -/
def preCount (store : QuotaStore) (key : String × String) : ℕ :=
  match store key with
  | none => 0
  | some r => r.cnt

/-- The per-step contract of claim C1: success exactly when the
pre-increment count is below the limit, returning and storing `pre + 1`;
failure leaves the store untouched. -/
def QuotaStepSpec (store : QuotaStore) (subject day : String) (limit : ℤ) (ttl : ℕ) : Prop :=
  ((preCount store (quotaKey subject day) : ℤ) < limit →
    (enforce_quota store subject day limit ttl).1 =
      some (preCount store (quotaKey subject day) + 1) ∧
    (enforce_quota store subject day limit ttl).2 (quotaKey subject day) =
      some ⟨preCount store (quotaKey subject day) + 1, ttl⟩) ∧
  (¬ (preCount store (quotaKey subject day) : ℤ) < limit →
    (enforce_quota store subject day limit ttl).1 = none ∧
    (enforce_quota store subject day limit ttl).2 = store) ∧
  ((enforce_quota store subject day limit ttl).1 ≠ none →
    (preCount store (quotaKey subject day) : ℤ) < limit)

/-- Claim C1 (amended): for limits of at least 1 the conditional increment
succeeds if and only if the stored pre-increment count of `(subject, day)`
is strictly below the limit (a missing record counting as 0), returning the
post-increment count; when the pre-increment count has reached the limit it
fails (QuotaExceeded) and the store is unchanged. -/
lemma tryIncrement_absent {s : QuotaStore} {k : String × String} (limit : ℤ)
    (ttl : ℕ) (h : s k = none) :
    tryIncrement s k limit ttl = (some 1, updateStore s k ⟨1, ttl⟩) := by
  unfold tryIncrement
  rw [h]

lemma tryIncrement_present {s : QuotaStore} {k : String × String} {r : QuotaRecord}
    (limit : ℤ) (ttl : ℕ) (h : s k = some r) :
    tryIncrement s k limit ttl =
      if (r.cnt : ℤ) < limit then
        (some (r.cnt + 1), updateStore s k ⟨r.cnt + 1, ttl⟩)
      else (none, s) := by
  unfold tryIncrement
  rw [h]

lemma preCount_absent {s : QuotaStore} {k : String × String} (h : s k = none) :
    preCount s k = 0 := by
  unfold preCount
  rw [h]

lemma preCount_present {s : QuotaStore} {k : String × String} {r : QuotaRecord}
    (h : s k = some r) : preCount s k = r.cnt := by
  unfold preCount
  rw [h]

lemma updateStore_self (s : QuotaStore) (k : String × String) (v : QuotaRecord) :
    updateStore s k v k = some v := by
  unfold updateStore
  rw [if_pos rfl]

lemma updateStore_other {k' k : String × String} (h : k' ≠ k) (s : QuotaStore)
    (v : QuotaRecord) : updateStore s k v k' = s k' := by
  unfold updateStore
  rw [if_neg h]

theorem c1_quota_step (store : QuotaStore) (subject day : String) (limit : ℤ)
    (ttl : ℕ) (hL : 1 ≤ limit) : QuotaStepSpec store subject day limit ttl := by
  unfold QuotaStepSpec enforce_quota
  cases h : store (quotaKey subject day) with
  | none =>
      rw [tryIncrement_absent limit ttl h, preCount_absent h]
      refine ⟨fun _ => ⟨rfl, updateStore_self _ _ _⟩,
        fun hn => absurd ?_ hn, fun _ => ?_⟩ <;>
        · show ((0 : ℕ) : ℤ) < limit
          omega
  | some r =>
      rw [tryIncrement_present limit ttl h, preCount_present h]
      by_cases hlt : (r.cnt : ℤ) < limit
      · rw [if_pos hlt]
        exact ⟨fun _ => ⟨rfl, updateStore_self _ _ _⟩,
          fun hn => absurd hlt hn, fun _ => hlt⟩
      · rw [if_neg hlt]
        exact ⟨fun hc => absurd hc hlt, fun _ => ⟨rfl, rfl⟩,
          fun hne => absurd rfl hne⟩

/-- Witness for `c1_quota_step` on the empty store with limit 3. -/
theorem c1_quota_step_witness :
    (1 : ℤ) ≤ 3 ∧ QuotaStepSpec emptyStore "u" "2026-01-01" 3 5 :=
  ⟨by norm_num, c1_quota_step emptyStore "u" "2026-01-01" 3 5 (by norm_num)⟩

/-- Counterexample to claim C1 as stated: with limit 0 and an absent record
the pre-increment count 0 is not below the limit, so the claim demands
failure — but the code's `attribute_not_exists(cnt)` branch succeeds and
stores count 1. -/
theorem c1_quota_step_cex :
    (enforce_quota emptyStore "u" "2026-01-01" 0 5).1 = some 1 ∧
    ¬ ((preCount emptyStore (quotaKey "u" "2026-01-01") : ℤ) < 0) := by
  exact ⟨rfl, by show ¬ ((0 : ℤ) < 0); omega⟩

/-- A sequence of quota attempts: each element is a `(subject, day)` pair
whose request runs `enforce_quota` against the shared store. -/
def runOps (limit : ℤ) (ttl : ℕ) : List (String × String) → QuotaStore → QuotaStore
  | [], s => s
  | op :: rest, s => runOps limit ttl rest (enforce_quota s op.1 op.2 limit ttl).2

/-- The per-key state space and transitions of claim C2, evaluated in the
store reached from the empty table by an arbitrary attempt sequence:
every key is ABSENT or holds a count in `[1, limit]` (never exceeding the
limit); an ABSENT key transitions to count 1 on an attempt; a COUNTING key
(count below the limit) increments by exactly 1; a key at the limit
(SATURATED) absorbs attempts as failures leaving the store unchanged; and a
day never mentioned by the attempts remains ABSENT (day rollover starts at
count 0). -/
def QuotaReachSpec (limit : ℤ) (ttl : ℕ) (ops : List (String × String)) : Prop :=
  (∀ k, runOps limit ttl ops emptyStore k = none ∨
    ∃ c e, runOps limit ttl ops emptyStore k = some ⟨c, e⟩ ∧ 1 ≤ c ∧ (c : ℤ) ≤ limit) ∧
  (∀ u d, runOps limit ttl ops emptyStore (quotaKey u d) = none →
    (enforce_quota (runOps limit ttl ops emptyStore) u d limit ttl).1 = some 1 ∧
    (enforce_quota (runOps limit ttl ops emptyStore) u d limit ttl).2 (quotaKey u d) =
      some ⟨1, ttl⟩) ∧
  (∀ u d c e, runOps limit ttl ops emptyStore (quotaKey u d) = some ⟨c, e⟩ →
    (c : ℤ) < limit →
    (enforce_quota (runOps limit ttl ops emptyStore) u d limit ttl).1 = some (c + 1) ∧
    (enforce_quota (runOps limit ttl ops emptyStore) u d limit ttl).2 (quotaKey u d) =
      some ⟨c + 1, ttl⟩) ∧
  (∀ u d c e, runOps limit ttl ops emptyStore (quotaKey u d) = some ⟨c, e⟩ →
    ¬ (c : ℤ) < limit →
    (enforce_quota (runOps limit ttl ops emptyStore) u d limit ttl).1 = none ∧
    (enforce_quota (runOps limit ttl ops emptyStore) u d limit ttl).2 =
      runOps limit ttl ops emptyStore) ∧
  (∀ D, (∀ op ∈ ops, op.2 = D) → ∀ u d, d ≠ D →
    runOps limit ttl ops emptyStore (quotaKey u d) = none)

/-- The per-key invariant: absent, or a count in `[1, limit]`. -/
def StoreInv (limit : ℤ) (s : QuotaStore) : Prop :=
  ∀ k, s k = none ∨ ∃ c e, s k = some ⟨c, e⟩ ∧ 1 ≤ c ∧ (c : ℤ) ≤ limit

lemma storeInv_step {limit : ℤ} (hL : 1 ≤ limit) {s : QuotaStore}
    (hInv : StoreInv limit s) (u d : String) (ttl : ℕ) :
    StoreInv limit (enforce_quota s u d limit ttl).2 := by
  intro k
  unfold enforce_quota
  cases h : s (quotaKey u d) with
  | none =>
      rw [tryIncrement_absent limit ttl h]
      dsimp only
      by_cases hk : k = quotaKey u d
      · subst hk
        right
        exact ⟨1, ttl, updateStore_self _ _ _, le_refl 1, by omega⟩
      · rw [updateStore_other hk]
        exact hInv k
  | some r =>
      rw [tryIncrement_present limit ttl h]
      by_cases hlt : (r.cnt : ℤ) < limit
      · rw [if_pos hlt]
        dsimp only
        by_cases hk : k = quotaKey u d
        · subst hk
          right
          exact ⟨r.cnt + 1, ttl, updateStore_self _ _ _, by omega, by push_cast; omega⟩
        · rw [updateStore_other hk]
          exact hInv k
      · rw [if_neg hlt]
        exact hInv k

lemma storeInv_runOps {limit : ℤ} (hL : 1 ≤ limit) (ttl : ℕ)
    (ops : List (String × String)) :
    ∀ s : QuotaStore, StoreInv limit s → StoreInv limit (runOps limit ttl ops s) := by
  induction ops with
  | nil => intro s hs; exact hs
  | cons op rest ih =>
      intro s hs
      exact ih _ (storeInv_step hL hs op.1 op.2 ttl)

lemma step_preserves_other_day {s : QuotaStore} {u d u' d' : String}
    (hne : d' ≠ d) (limit : ℤ) (ttl : ℕ) :
    (enforce_quota s u d limit ttl).2 (quotaKey u' d') = s (quotaKey u' d') := by
  have hk : quotaKey u' d' ≠ quotaKey u d := by
    intro hh
    exact hne (congrArg Prod.snd hh)
  unfold enforce_quota
  cases h : s (quotaKey u d) with
  | none =>
      rw [tryIncrement_absent limit ttl h]
      exact updateStore_other hk _ _
  | some r =>
      rw [tryIncrement_present limit ttl h]
      by_cases hlt : (r.cnt : ℤ) < limit
      · rw [if_pos hlt]
        exact updateStore_other hk _ _
      · rw [if_neg hlt]

lemma runOps_fresh_day {limit : ℤ} {ttl : ℕ} {D : String}
    {ops : List (String × String)} (hops : ∀ op ∈ ops, op.2 = D)
    {u d : String} (hne : d ≠ D) :
    ∀ s : QuotaStore, s (quotaKey u d) = none →
      runOps limit ttl ops s (quotaKey u d) = none := by
  induction ops with
  | nil => intro s hs; exact hs
  | cons op rest ih =>
      intro s hs
      have hd : op.2 = D := hops op (List.mem_cons_self op rest)
      have : (enforce_quota s op.1 op.2 limit ttl).2 (quotaKey u d) = none := by
        rw [step_preserves_other_day (by rw [hd]; exact hne) limit ttl]
        exact hs
      exact ih (fun o ho => hops o (List.mem_cons_of_mem op ho)) _ this

/-- Claim C2 (amended): for limits of at least 1, every state reached from
the empty table by any attempt sequence keeps every stored count in
`[1, limit]` — never exceeding the configured limit; attempts follow the
state machine `ABSENT → COUNTING(count < limit) → SATURATED(count = limit)`
with `SATURATED` absorbing further attempts as failures; and a key for a day
no attempt has touched is still absent, so a different day starts at 0
regardless of another day being saturated. -/
theorem c2_quota_invariant (limit : ℤ) (ttl : ℕ) (ops : List (String × String))
    (hL : 1 ≤ limit) : QuotaReachSpec limit ttl ops := by
  unfold QuotaReachSpec
  refine ⟨?_, ?_, ?_, ?_, ?_⟩
  · exact storeInv_runOps hL ttl ops emptyStore (fun _ => Or.inl rfl)
  · intro u d h
    unfold enforce_quota
    rw [tryIncrement_absent limit ttl h]
    exact ⟨rfl, updateStore_self _ _ _⟩
  · intro u d c e h hlt
    unfold enforce_quota
    rw [tryIncrement_present limit ttl h, if_pos hlt]
    exact ⟨rfl, updateStore_self _ _ _⟩
  · intro u d c e h hge
    unfold enforce_quota
    rw [tryIncrement_present limit ttl h, if_neg hge]
    exact ⟨rfl, rfl⟩
  · intro D hops u d hne
    exact runOps_fresh_day hops hne emptyStore rfl

/-- Witness for `c2_quota_invariant`: limit 1, a single attempt. -/
theorem c2_quota_invariant_witness :
    (1 : ℤ) ≤ 1 ∧ QuotaReachSpec 1 0 [("a", "d1")] :=
  ⟨le_refl 1, c2_quota_invariant 1 0 [("a", "d1")] (le_refl 1)⟩

/-- Counterexample to claim C2 as stated: with configured limit 0, a single
attempt on the empty table stores count 1, which exceeds the limit. -/
theorem c2_quota_invariant_cex :
    runOps 0 7 [("u", "d")] emptyStore (quotaKey "u" "d") = some ⟨1, 7⟩ ∧
    ¬ ((1 : ℤ) ≤ 0) := by
  constructor
  · show (enforce_quota emptyStore "u" "d" 0 7).2 (quotaKey "u" "d") = some ⟨1, 7⟩
    rw [enforce_quota, tryIncrement_absent 0 7 rfl]
    dsimp only
    exact updateStore_self _ _ _
  · omega

/-- N racing attempts on one `(subject, day)` key.  Each attempt is a single
atomic conditional write, so every concurrent schedule is one of these
serializations; the result list records each attempt's outcome. -/
def runAttempts (subject day : String) (limit : ℤ) (ttl : ℕ) :
    ℕ → QuotaStore → List (Option ℕ) × QuotaStore
  | 0, s => ([], s)
  | n + 1, s =>
    ((enforce_quota s subject day limit ttl).1 ::
      (runAttempts subject day limit ttl n (enforce_quota s subject day limit ttl).2).1,
      (runAttempts subject day limit ttl n (enforce_quota s subject day limit ttl).2).2)

/-- Number of successful outcomes. -/
def succCount (rs : List (Option ℕ)) : ℕ := (rs.filter (fun r => r.isSome)).length

/-- Number of QuotaExceeded outcomes. -/
def failCount (rs : List (Option ℕ)) : ℕ := (rs.filter (fun r => r.isNone)).length

lemma runAttempts_zero (subject day : String) (limit : ℤ) (ttl : ℕ) (s : QuotaStore) :
    runAttempts subject day limit ttl 0 s = ([], s) := rfl

lemma runAttempts_succ (subject day : String) (limit : ℤ) (ttl : ℕ) (n : ℕ)
    (s : QuotaStore) :
    runAttempts subject day limit ttl (n + 1) s =
      ((enforce_quota s subject day limit ttl).1 ::
        (runAttempts subject day limit ttl n (enforce_quota s subject day limit ttl).2).1,
        (runAttempts subject day limit ttl n (enforce_quota s subject day limit ttl).2).2) :=
  rfl

lemma succCount_cons_some (m : ℕ) (rs : List (Option ℕ)) :
    succCount (some m :: rs) = succCount rs + 1 := rfl

lemma succCount_cons_none (rs : List (Option ℕ)) :
    succCount (none :: rs) = succCount rs := rfl

lemma failCount_cons_some (m : ℕ) (rs : List (Option ℕ)) :
    failCount (some m :: rs) = failCount rs := rfl

lemma failCount_cons_none (rs : List (Option ℕ)) :
    failCount (none :: rs) = failCount rs + 1 := rfl

/-- The race contract of claim C3: out of N attempts racing on one key from
an absent record, exactly `limit` succeed, `N - limit` fail, and the final
stored count is `limit`. -/
def QuotaRaceSpec (subject day : String) (L N ttl : ℕ) (store : QuotaStore) : Prop :=
  succCount (runAttempts subject day (L : ℤ) ttl N store).1 = L ∧
  failCount (runAttempts subject day (L : ℤ) ttl N store).1 = N - L ∧
  (runAttempts subject day (L : ℤ) ttl N store).2 (quotaKey subject day) =
    some ⟨L, ttl⟩

lemma runAttempts_from_count (subject day : String) (L : ℕ) (ttl : ℕ) :
    ∀ (N : ℕ) (s : QuotaStore) (c : ℕ),
      s (quotaKey subject day) = some ⟨c, ttl⟩ →
      succCount (runAttempts subject day (L : ℤ) ttl N s).1 = min N (L - c) ∧
      failCount (runAttempts subject day (L : ℤ) ttl N s).1 = N - min N (L - c) ∧
      (runAttempts subject day (L : ℤ) ttl N s).2 (quotaKey subject day) =
        some ⟨c + min N (L - c), ttl⟩ := by
  intro N
  induction N with
  | zero =>
      intro s c hc
      rw [runAttempts_zero]
      dsimp only
      have hm1 : min 0 (L - c) = 0 := by omega
      rw [hm1, hc]
      exact ⟨rfl, rfl, rfl⟩
  | succ n ih =>
      intro s c hc
      rw [runAttempts_succ]
      dsimp only
      by_cases hlt : c < L
      · have hstep : enforce_quota s subject day (L : ℤ) ttl =
            (some (c + 1), updateStore s (quotaKey subject day) ⟨c + 1, ttl⟩) := by
          unfold enforce_quota
          rw [tryIncrement_present (L : ℤ) ttl hc, if_pos (by push_cast; omega)]
        have h1 : (enforce_quota s subject day (L : ℤ) ttl).1 = some (c + 1) := by
          rw [hstep]
        have hnext : (enforce_quota s subject day (L : ℤ) ttl).2
            (quotaKey subject day) = some ⟨c + 1, ttl⟩ := by
          rw [hstep]
          exact updateStore_self _ _ _
        rcases ih (enforce_quota s subject day (L : ℤ) ttl).2 (c + 1) hnext with
          ⟨ihs, ihf, ihst⟩
        refine ⟨?_, ?_, ?_⟩
        · rw [h1, succCount_cons_some, ihs]
          omega
        · rw [h1, failCount_cons_some, ihf]
          omega
        · rw [ihst]
          have hm : c + 1 + min n (L - (c + 1)) = c + min (n + 1) (L - c) := by omega
          rw [hm]
      · have hstep : enforce_quota s subject day (L : ℤ) ttl = (none, s) := by
          unfold enforce_quota
          rw [tryIncrement_present (L : ℤ) ttl hc, if_neg (by push_cast; omega)]
        have h1 : (enforce_quota s subject day (L : ℤ) ttl).1 = none := by
          rw [hstep]
        have h2 : (enforce_quota s subject day (L : ℤ) ttl).2 = s := by
          rw [hstep]
        rcases ih s c hc with ⟨ihs, ihf, ihst⟩
        refine ⟨?_, ?_, ?_⟩
        · rw [h1, h2, succCount_cons_none, ihs]
          omega
        · rw [h1, h2, failCount_cons_none, ihf]
          omega
        · rw [h2, ihst]
          have hm : c + min n (L - c) = c + min (n + 1) (L - c) := by omega
          rw [hm]

/-- Claim C3 (amended): for every limit `L ≥ 1` and `N ≥ L` attempts racing
on one `(subject, day)` key starting from an absent record (each attempt one
atomic conditional write, so all interleavings are covered), exactly `L`
succeed, `N - L` fail with QuotaExceeded, and the final stored count is
exactly `L`. -/
theorem c3_quota_race (subject day : String) (L N ttl : ℕ) (store : QuotaStore)
    (h1 : 1 ≤ L) (h2 : L ≤ N) (h0 : store (quotaKey subject day) = none) :
    QuotaRaceSpec subject day L N ttl store := by
  unfold QuotaRaceSpec
  cases N with
  | zero => omega
  | succ M =>
      rw [runAttempts_succ]
      dsimp only
      have hstep : enforce_quota store subject day (L : ℤ) ttl =
          (some 1, updateStore store (quotaKey subject day) ⟨1, ttl⟩) := by
        unfold enforce_quota
        rw [tryIncrement_absent (L : ℤ) ttl h0]
      have hh1 : (enforce_quota store subject day (L : ℤ) ttl).1 = some 1 := by
        rw [hstep]
      have hnext : (enforce_quota store subject day (L : ℤ) ttl).2
          (quotaKey subject day) = some ⟨1, ttl⟩ := by
        rw [hstep]
        exact updateStore_self _ _ _
      rcases runAttempts_from_count subject day L ttl M
        (enforce_quota store subject day (L : ℤ) ttl).2 1 hnext with ⟨ihs, ihf, ihst⟩
      refine ⟨?_, ?_, ?_⟩
      · rw [hh1, succCount_cons_some, ihs]
        omega
      · rw [hh1, failCount_cons_some, ihf]
        omega
      · rw [ihst]
        have hm : 1 + min M (L - 1) = L := by omega
        rw [hm]

/-- Witness for `c3_quota_race`: limit 1, two attempts on the empty store. -/
theorem c3_quota_race_witness :
    (1 ≤ 1 ∧ 1 ≤ 2 ∧ emptyStore (quotaKey "u" "d") = none) ∧
    QuotaRaceSpec "u" "d" 1 2 0 emptyStore :=
  ⟨⟨le_refl 1, by omega, rfl⟩,
    c3_quota_race "u" "d" 1 2 0 emptyStore (le_refl 1) (by omega) rfl⟩

/-- Counterexample to claim C3 as stated: with limit L = 0 and N = 1 ≥ L
attempts, the claim says 0 attempts succeed and the final count is 0, but
the single attempt succeeds (the absent-record branch of the condition) and
the final stored count is 1. -/
theorem c3_quota_race_cex :
    succCount (runAttempts "u" "d" ((0 : ℕ) : ℤ) 9 1 emptyStore).1 = 1 ∧
    (runAttempts "u" "d" ((0 : ℕ) : ℤ) 9 1 emptyStore).2 (quotaKey "u" "d") =
      some ⟨1, 9⟩ ∧
    (1 : ℕ) ≠ 0 := by
  refine ⟨rfl, ?_, by omega⟩
  rw [runAttempts_succ, runAttempts_zero]
  dsimp only
  rw [enforce_quota, tryIncrement_absent _ 9 rfl]
  dsimp only
  exact updateStore_self _ _ _
